import Mathlib

/-!
Verification of the AST pretty-printer `formatAST` from the repository's
parse script.  The JavaScript source is

  function formatAST(ast, indent = 0) {
    const spaces = '  '.repeat(indent);
    let result = '';
    let depth = 0;
    for (let i = 0; i < ast.length; i++) {
      const char = ast[i];
      if (char === '(') {
        result += char + '\n' + '  '.repeat(depth + 1);
        depth++;
      } else if (char === ')') {
        depth--;
        result += '\n' + '  '.repeat(depth) + char;
      } else if (char === ' ' && ast[i - 1] !== '\n') {
        result += '\n' + '  '.repeat(depth);
        while (i < ast.length && ast[i] === ' ') i++;
        i--;
      } else {
        result += char;
      }
    }
    return result;
  }

The embedding below is over `List Char`.  JavaScript's
`String.prototype.repeat` raises a `RangeError` when its count is
negative, so `repeat` is modelled as an `Option`-valued function
(`jsRepeat`) and `formatAST` as `String → Int → Option String`: `none`
models the function throwing.  The `depth` counter is an `Int` because
the source decrements it without a guard.  The inner `while` loop that
skips a run of spaces is rendered by a `skipping : Bool` flag that
consumes one space per recursive step; `formatGo_skipping_eq_dropWhile`
below proves this flag rendering equal to dropping the whole run at
once, which is exactly what the `while` loop does.  The guard
`ast[i - 1] !== '\n'` reads the character of the ORIGINAL input one
position to the left of the cursor, so the embedding threads that
character along as `prev : Option Char` (`none` plays the role of the
out-of-range read `ast[-1] === undefined` at position 0; after the
space-skipping loop the character to the left is the last space of the
skipped run).
-/

namespace TreeFmt

/-- Balance contribution of one character: +1 for an opening parenthesis,
-1 for a closing one, 0 otherwise. -/
def charBal (c : Char) : Int :=
  if c = '(' then 1 else if c = ')' then -1 else 0

/-- Total parenthesis balance of a character list. -/
def balance : List Char → Int
  | [] => 0
  | c :: rest => charBal c + balance rest

/-- Whether the running depth, started at `d`, drops strictly below zero
somewhere along `cs` (scanning left to right, `(` counts +1 and `)`
counts -1). -/
def goesNeg : Int → List Char → Bool
  | _, [] => false
  | d, c :: rest => decide (d + charBal c < 0) || goesNeg (d + charBal c) rest

/-- Parenthesis-balanced input: the running depth never goes negative and
the total balance is zero. -/
def balancedB (cs : List Char) : Bool :=
  !goesNeg 0 cs && decide (balance cs = 0)

/-- Characters of `s` repeated `n` times (the n-fold concatenation). -/
def strRepeat (s : List Char) (n : Nat) : List Char :=
  (List.replicate n s).flatten

/-- JavaScript `s.repeat(n)` for an integer count: a negative count raises
a `RangeError`, modelled as `none`. -/
def jsRepeat (s : List Char) (n : Int) : Option (List Char) :=
  if n < 0 then none else some (strRepeat s n.toNat)

/-- The indentation computation of the source, `'  '.repeat(d)`: two
literal spaces repeated `d` times, failing on a negative `d`. -/
def jsIndent (d : Int) : Option (List Char) :=
  jsRepeat [' ', ' '] d

/-- The scanning loop of `formatAST`.  Arguments: the remaining input,
the original-input character just left of the cursor (`prev`), the flag
for being inside the space-skipping `while` loop, and the current depth.
Returns the emitted output together with the final value of the depth
counter, or `none` when the loop would raise (negative repeat count). -/
def formatGo : List Char → Option Char → Bool → Int → Option (List Char × Int)
  | [], _, _, depth => some ([], depth)
  | c :: rest, prev, skipping, depth =>
    if skipping ∧ c = ' ' then
      formatGo rest (some ' ') true depth
    else if c = '(' then
      (jsIndent (depth + 1)).bind fun ind =>
        (formatGo rest (some c) false (depth + 1)).map fun p =>
          (c :: '\n' :: (ind ++ p.1), p.2)
    else if c = ')' then
      (jsIndent (depth - 1)).bind fun ind =>
        (formatGo rest (some c) false (depth - 1)).map fun p =>
          ('\n' :: (ind ++ c :: p.1), p.2)
    else if c = ' ' ∧ prev ≠ some '\n' then
      (jsIndent depth).bind fun ind =>
        (formatGo rest (some ' ') true depth).map fun p =>
          ('\n' :: (ind ++ p.1), p.2)
    else
      (formatGo rest (some c) false depth).map fun p => (c :: p.1, p.2)

/-- The whole of `formatAST`: first the (unused) `spaces` binding, whose
`'  '.repeat(indent)` can itself raise on a negative argument, then the
scanning loop started with depth 0 at position 0. -/
def formatAST (ast : String) (indent : Int := 0) : Option String :=
  (jsRepeat [' ', ' '] indent).bind fun _spaces =>
    (formatGo ast.toList none false 0).map fun p => String.mk p.1

/-- Whitespace in the sense of this formatter: the only whitespace it ever
inserts are space and newline characters. -/
def isWS (c : Char) : Bool := c = ' ' || c = '\n'

/-- Removal of all whitespace characters (spaces and newlines). -/
def removeWS (l : List Char) : List Char := l.filter fun c => !isWS c

/-- Split a character list into its lines (the segments between newline
characters; a trailing newline yields a final empty line). -/
def splitLines (cs : List Char) : List (List Char) :=
  cs.foldr (fun c acc =>
    if c = '\n' then [] :: acc else (c :: acc.headI) :: acc.tail) [[]]

/-- A character that is not a parenthesis. -/
def nonParen (c : Char) : Bool := !(c = '(' || c = ')')

/-- A line is acceptable when it contains no parenthesis at all, or when it
is an indentation run of spaces followed by exactly one parenthesis: a
parenthesis on a line of its own, preceded only by its indentation. -/
def lineOKB (l : List Char) : Bool :=
  l.all nonParen ||
    (match l.dropWhile (fun c => c = ' ') with
     | [c] => c = '(' || c = ')'
     | _ => false)

/-- Every line of the output that mentions a parenthesis consists of
indentation followed by that single parenthesis. -/
def linesOKB (out : List Char) : Bool := (splitLines out).all lineOKB

/-- Allowed adjacency in a §3 serialized tree string, `x` directly followed
by `y`: an opening parenthesis is preceded only by a separating space or
another opening parenthesis, and a closing parenthesis is followed only by
another closing parenthesis or a separating space. -/
def adjPair (x y : Char) : Bool :=
  (if y = '(' then x = ' ' || x = '(' else true) &&
  (if x = ')' then y = ')' || y = ' ' else true)

/-- All adjacent pairs of the list satisfy `adjPair`, where the optional
first argument supplies the character standing just before the list. -/
def adjFrom : Option Char → List Char → Bool
  | _, [] => true
  | none, c :: rest => adjFrom (some c) rest
  | some x, c :: rest => adjPair x c && adjFrom (some c) rest

/-- The serialized form of §3 is a single line: no newline characters. -/
def noNewline (cs : List Char) : Bool := cs.all (fun c => c ≠ '\n')

/-- Sibling tokens are separated by single spaces: no two adjacent spaces. -/
def noDoubleSpace : List Char → Bool
  | [] => true
  | [_] => true
  | x :: y :: rest => !(x = ' ' && y = ' ') && noDoubleSpace (y :: rest)

/-- The serialized tree format of §3 of the spec: balanced parentheses, a
single line, single spaces separating sibling tokens, an opening
parenthesis preceded only by a space, another opening parenthesis or the
start of the string, and a closing parenthesis followed only by another
closing parenthesis, a space or the end of the string. -/
def serialized3 (cs : List Char) : Bool :=
  balancedB cs && noNewline cs && noDoubleSpace cs && adjFrom none cs

section BranchLemmas

theorem formatGo_nil (prev : Option Char) (sk : Bool) (d : Int) :
    formatGo [] prev sk d = some ([], d) := rfl

theorem formatGo_skip (rest : List Char) (prev : Option Char) (d : Int) :
    formatGo (' ' :: rest) prev true d = formatGo rest (some ' ') true d := by
  simp [formatGo]

theorem formatGo_open (rest : List Char) (prev : Option Char) (sk : Bool) (d : Int) :
    formatGo ('(' :: rest) prev sk d =
      (jsIndent (d + 1)).bind fun ind =>
        (formatGo rest (some '(') false (d + 1)).map fun p =>
          ('(' :: '\n' :: (ind ++ p.1), p.2) := by
  simp [formatGo]

theorem formatGo_close (rest : List Char) (prev : Option Char) (sk : Bool) (d : Int) :
    formatGo (')' :: rest) prev sk d =
      (jsIndent (d - 1)).bind fun ind =>
        (formatGo rest (some ')') false (d - 1)).map fun p =>
          ('\n' :: (ind ++ ')' :: p.1), p.2) := by
  simp [formatGo]

theorem formatGo_break (rest : List Char) (prev : Option Char) (d : Int)
    (h : prev ≠ some '\n') :
    formatGo (' ' :: rest) prev false d =
      (jsIndent d).bind fun ind =>
        (formatGo rest (some ' ') true d).map fun p =>
          ('\n' :: (ind ++ p.1), p.2) := by
  simp [formatGo, h]

theorem formatGo_space_after_newline (rest : List Char) (d : Int) :
    formatGo (' ' :: rest) (some '\n') false d =
      (formatGo rest (some ' ') false d).map fun p => (' ' :: p.1, p.2) := by
  simp [formatGo]

theorem formatGo_other (rest : List Char) (prev : Option Char) (sk : Bool) (d : Int)
    (c : Char) (h1 : c ≠ '(') (h2 : c ≠ ')') (h3 : c ≠ ' ') :
    formatGo (c :: rest) prev sk d =
      (formatGo rest (some c) false d).map fun p => (c :: p.1, p.2) := by
  simp [formatGo, h1, h2, h3]

theorem formatGo_skip_irrel (c : Char) (rest : List Char) (prev : Option Char) (d : Int)
    (h : c ≠ ' ') :
    formatGo (c :: rest) prev true d = formatGo (c :: rest) prev false d := by
  simp [formatGo, h]

/-- The skipping flag consumes exactly the run of leading spaces: the flag
rendering of the source's inner `while` loop agrees with dropping the
whole run at once. -/
theorem formatGo_skipping_eq_dropWhile (cs : List Char) (d : Int) :
    formatGo cs (some ' ') true d =
      formatGo (cs.dropWhile (fun c => c = ' ')) (some ' ') false d := by
  induction cs with
  | nil => rfl
  | cons c rest ih =>
    by_cases hc : c = ' '
    · subst hc
      rw [formatGo_skip, ih]
      simp [List.dropWhile_cons]
    · rw [formatGo_skip_irrel c rest _ d hc]
      simp [List.dropWhile_cons, hc]

theorem formatAST_zero (s : String) :
    formatAST s 0 = (formatGo s.toList none false 0).map fun p => String.mk p.1 := by
  simp [formatAST, jsRepeat]

end BranchLemmas

section CoreLemmas

theorem goesNeg_cons (d : Int) (c : Char) (rest : List Char) :
    goesNeg d (c :: rest) =
      (decide (d + charBal c < 0) || goesNeg (d + charBal c) rest) := rfl

theorem balance_cons (c : Char) (rest : List Char) :
    balance (c :: rest) = charBal c + balance rest := rfl

theorem charBal_open : charBal '(' = 1 := rfl

theorem charBal_close : charBal ')' = -1 := rfl

theorem charBal_of_ne (c : Char) (h1 : c ≠ '(') (h2 : c ≠ ')') : charBal c = 0 := by
  simp [charBal, h1, h2]

theorem jsIndent_of_nonneg (d : Int) (h : 0 ≤ d) :
    jsIndent d = some (strRepeat [' ', ' '] d.toNat) := by
  simp [jsIndent, jsRepeat, not_lt.mpr h]

theorem jsIndent_of_neg (d : Int) (h : d < 0) : jsIndent d = none := by
  simp [jsIndent, jsRepeat, h]

theorem mem_strRepeat_spaces (n : Nat) (c : Char)
    (hc : c ∈ strRepeat [' ', ' '] n) : c = ' ' := by
  simp only [strRepeat, List.mem_flatten] at hc
  obtain ⟨l, hl, hcl⟩ := hc
  obtain ⟨_, rfl⟩ := List.mem_replicate.mp hl
  simp only [List.mem_cons, List.not_mem_nil, or_false] at hcl
  rcases hcl with h | h <;> exact h

theorem jsIndent_spaces (d : Int) (ind : List Char) (h : jsIndent d = some ind) :
    ∀ c ∈ ind, c = ' ' := by
  rcases lt_or_le d 0 with hd | hd
  · rw [jsIndent_of_neg d hd] at h; cases h
  · rw [jsIndent_of_nonneg d hd] at h
    obtain rfl := Option.some.inj h
    exact fun c hc => mem_strRepeat_spaces _ c hc

theorem filter_nonWS_of_spaces (l : List Char) (h : ∀ c ∈ l, c = ' ') :
    l.filter (fun c => !isWS c) = [] := by
  rw [List.filter_eq_nil_iff]
  intro c hc
  rw [h c hc]
  simp [isWS]

/-- If the running depth ever drops below zero, the loop raises: the
`'  '.repeat(depth)` with the freshly negative depth is a negative-count
repeat. -/
theorem formatGo_fail (cs : List Char) : ∀ (prev : Option Char) (sk : Bool) (d : Int),
    0 ≤ d → goesNeg d cs = true → formatGo cs prev sk d = none := by
  induction cs with
  | nil => intro prev sk d _ hg; cases hg
  | cons c rest ih =>
    intro prev sk d hd hg
    rw [goesNeg_cons, Bool.or_eq_true] at hg
    by_cases hc1 : c = '('
    · subst hc1
      rw [charBal_open] at hg
      have hneg : goesNeg (d + 1) rest = true := by
        rcases hg with hg | hg
        · exact absurd (of_decide_eq_true hg) (by omega)
        · exact hg
      rw [formatGo_open, jsIndent_of_nonneg _ (by omega), Option.some_bind,
        ih (some '(') false (d + 1) (by omega) hneg, Option.map_none']
    · by_cases hc2 : c = ')'
      · subst hc2
        rw [charBal_close] at hg
        rcases lt_or_le (d - 1) 0 with hneg | hnn
        · rw [formatGo_close, jsIndent_of_neg _ hneg, Option.none_bind]
        · have hrest : goesNeg (d - 1) rest = true := by
            rcases hg with hg | hg
            · exact absurd (of_decide_eq_true hg) (by omega)
            · simpa [sub_eq_add_neg] using hg
          rw [formatGo_close, jsIndent_of_nonneg _ hnn, Option.some_bind,
            ih (some ')') false (d - 1) hnn (by simpa [sub_eq_add_neg] using hrest),
            Option.map_none']
      · have hbal : charBal c = 0 := charBal_of_ne c hc1 hc2
        rw [hbal, add_zero] at hg
        have hrest : goesNeg d rest = true := by
          rcases hg with hg | hg
          · exact absurd (of_decide_eq_true hg) (by omega)
          · exact hg
        by_cases hc3 : c = ' '
        · subst hc3
          cases sk with
          | true => rw [formatGo_skip, ih (some ' ') true d hd hrest]
          | false =>
            by_cases hp : prev = some '\n'
            · subst hp
              rw [formatGo_space_after_newline, ih (some ' ') false d hd hrest,
                Option.map_none']
            · rw [formatGo_break rest prev d hp, jsIndent_of_nonneg _ hd,
                Option.some_bind, ih (some ' ') true d hd hrest, Option.map_none']
        · rw [formatGo_other rest prev sk d c hc1 hc2 hc3,
            ih (some c) false d hd hrest, Option.map_none']

/-- If the running depth never drops below zero, the loop completes, and
the final value of the depth counter is the start depth plus the total
parenthesis balance of the input. -/
theorem formatGo_total (cs : List Char) : ∀ (prev : Option Char) (sk : Bool) (d : Int),
    0 ≤ d → goesNeg d cs = false →
    ∃ out, formatGo cs prev sk d = some (out, d + balance cs) := by
  induction cs with
  | nil =>
    intro prev sk d _ _
    exact ⟨[], by simp [formatGo_nil, balance]⟩
  | cons c rest ih =>
    intro prev sk d hd hg
    rw [goesNeg_cons, Bool.or_eq_false_iff, decide_eq_false_iff_not, not_lt] at hg
    obtain ⟨hge, hgrest⟩ := hg
    have hfinal : d + balance (c :: rest) = (d + charBal c) + balance rest := by
      rw [balance_cons]; ring
    by_cases hc1 : c = '('
    · subst hc1
      rw [charBal_open] at hge hgrest
      obtain ⟨out, hout⟩ := ih (some '(') false (d + 1) (by omega) hgrest
      refine ⟨'(' :: '\n' :: (strRepeat [' ', ' '] (d + 1).toNat ++ out), ?_⟩
      rw [formatGo_open, jsIndent_of_nonneg _ (by omega), Option.some_bind, hout,
        Option.map_some', hfinal, charBal_open]
    · by_cases hc2 : c = ')'
      · subst hc2
        rw [charBal_close] at hge hgrest
        have hnn : 0 ≤ d - 1 := by omega
        obtain ⟨out, hout⟩ := ih (some ')') false (d - 1) hnn
          (by simpa [sub_eq_add_neg] using hgrest)
        refine ⟨'\n' :: (strRepeat [' ', ' '] (d - 1).toNat ++ ')' :: out), ?_⟩
        rw [formatGo_close, jsIndent_of_nonneg _ hnn, Option.some_bind, hout,
          Option.map_some', hfinal, charBal_close]
        norm_num [sub_eq_add_neg]
      · have hbal : charBal c = 0 := charBal_of_ne c hc1 hc2
        rw [hbal, add_zero] at hgrest
        rw [hbal, add_zero] at hfinal
        by_cases hc3 : c = ' '
        · subst hc3
          cases sk with
          | true =>
            obtain ⟨out, hout⟩ := ih (some ' ') true d hd hgrest
            exact ⟨out, by rw [formatGo_skip, hout, hfinal]⟩
          | false =>
            by_cases hp : prev = some '\n'
            · subst hp
              obtain ⟨out, hout⟩ := ih (some ' ') false d hd hgrest
              refine ⟨' ' :: out, ?_⟩
              rw [formatGo_space_after_newline, hout, Option.map_some', hfinal]
            · obtain ⟨out, hout⟩ := ih (some ' ') true d hd hgrest
              refine ⟨'\n' :: (strRepeat [' ', ' '] d.toNat ++ out), ?_⟩
              rw [formatGo_break rest prev d hp, jsIndent_of_nonneg _ hd,
                Option.some_bind, hout, Option.map_some', hfinal]
        · obtain ⟨out, hout⟩ := ih (some c) false d hd hgrest
          refine ⟨c :: out, ?_⟩
          rw [formatGo_other rest prev sk d c hc1 hc2 hc3, hout, Option.map_some',
            hfinal]

/-- The loop never changes the sequence of non-whitespace characters: the
output filtered to non-whitespace equals the input filtered likewise. -/
theorem formatGo_filter (cs : List Char) : ∀ (prev : Option Char) (sk : Bool) (d : Int)
    (out : List Char) (dEnd : Int),
    formatGo cs prev sk d = some (out, dEnd) →
    out.filter (fun c => !isWS c) = cs.filter (fun c => !isWS c) := by
  induction cs with
  | nil =>
    intro prev sk d out dEnd h
    rw [formatGo_nil] at h
    simp only [Option.some.injEq, Prod.mk.injEq] at h
    rw [← h.1]
  | cons c rest ih =>
    intro prev sk d out dEnd h
    by_cases hc1 : c = '('
    · subst hc1
      rw [formatGo_open, Option.bind_eq_some] at h
      obtain ⟨ind, hind, h⟩ := h
      rw [Option.map_eq_some'] at h
      obtain ⟨p, hp, h2⟩ := h
      obtain ⟨rfl, _⟩ := Prod.mk.injEq .. ▸ h2
      have hindnil := filter_nonWS_of_spaces ind (jsIndent_spaces _ _ hind)
      simp only [List.filter_cons, List.filter_append, hindnil,
        ih (some '(') false (d + 1) p.1 p.2 (by rw [hp])]
      simp [isWS]
    · by_cases hc2 : c = ')'
      · subst hc2
        rw [formatGo_close, Option.bind_eq_some] at h
        obtain ⟨ind, hind, h⟩ := h
        rw [Option.map_eq_some'] at h
        obtain ⟨p, hp, h2⟩ := h
        obtain ⟨rfl, _⟩ := Prod.mk.injEq .. ▸ h2
        have hindnil := filter_nonWS_of_spaces ind (jsIndent_spaces _ _ hind)
        simp only [List.filter_cons, List.filter_append, hindnil,
          ih (some ')') false (d - 1) p.1 p.2 (by rw [hp])]
        simp [isWS]
      · by_cases hc3 : c = ' '
        · subst hc3
          cases sk with
          | true =>
            rw [formatGo_skip] at h
            rw [ih (some ' ') true d out dEnd h]
            simp [List.filter_cons, isWS]
          | false =>
            by_cases hp : prev = some '\n'
            · subst hp
              rw [formatGo_space_after_newline, Option.map_eq_some'] at h
              obtain ⟨p, hp2, h2⟩ := h
              obtain ⟨rfl, _⟩ := Prod.mk.injEq .. ▸ h2
              have hih := ih (some ' ') false d p.1 p.2 (by rw [hp2])
              simpa [List.filter_cons, isWS] using hih
            · rw [formatGo_break rest prev d hp, Option.bind_eq_some] at h
              obtain ⟨ind, hind, h⟩ := h
              rw [Option.map_eq_some'] at h
              obtain ⟨p, hp2, h2⟩ := h
              obtain ⟨rfl, _⟩ := Prod.mk.injEq .. ▸ h2
              have hindnil := filter_nonWS_of_spaces ind (jsIndent_spaces _ _ hind)
              simp only [List.filter_cons, List.filter_append, hindnil,
                ih (some ' ') true d p.1 p.2 (by rw [hp2])]
              simp [isWS]
        · rw [formatGo_other rest prev sk d c hc1 hc2 hc3, Option.map_eq_some'] at h
          obtain ⟨p, hp2, h2⟩ := h
          obtain ⟨rfl, _⟩ := Prod.mk.injEq .. ▸ h2
          simp only [List.filter_cons]
          rw [ih (some c) false d p.1 p.2 (by rw [hp2])]

end CoreLemmas

section CountHelpers

theorem count_eq_of_filter_nonWS_eq (a : Char) (ha : isWS a = false)
    (l1 l2 : List Char)
    (h : l1.filter (fun c => !isWS c) = l2.filter (fun c => !isWS c)) :
    l1.count a = l2.count a := by
  have h1 : ∀ l : List Char, (l.filter (fun c => !isWS c)).count a = l.count a := by
    intro l
    exact List.count_filter (by rw [ha]; rfl)
  rw [← h1 l1, ← h1 l2, h]

end CountHelpers

section LineLemmas

theorem splitLines_nil : splitLines [] = [[]] := rfl

theorem splitLines_cons (c : Char) (t : List Char) :
    splitLines (c :: t) =
      if c = '\n' then [] :: splitLines t
      else (c :: (splitLines t).headI) :: (splitLines t).tail := rfl

theorem splitLines_ne_nil (cs : List Char) : splitLines cs ≠ [] := by
  cases cs with
  | nil => simp [splitLines]
  | cons c t =>
    rw [splitLines_cons]
    split <;> simp

theorem eq_headI_cons_tail (l : List (List Char)) (h : l ≠ []) :
    l = l.headI :: l.tail := by
  cases l with
  | nil => exact absurd rfl h
  | cons a t => rfl

theorem headI_splitLines (cs : List Char) :
    (splitLines cs).headI = cs.takeWhile (fun c => c ≠ '\n') := by
  induction cs with
  | nil => rfl
  | cons c t ih =>
    rw [splitLines_cons]
    by_cases hc : c = '\n'
    · subst hc
      simp [List.takeWhile_cons]
    · simp [hc, List.takeWhile_cons, ih]

theorem splitLines_append_no_nl (a t : List Char) (ha : ∀ c ∈ a, c ≠ '\n') :
    splitLines (a ++ t) = (a ++ (splitLines t).headI) :: (splitLines t).tail := by
  induction a with
  | nil =>
    simp only [List.nil_append]
    exact eq_headI_cons_tail _ (splitLines_ne_nil t)
  | cons c a2 ih =>
    have hc : c ≠ '\n' := ha c (by simp)
    rw [List.cons_append, splitLines_cons, if_neg hc,
      ih (fun x hx => ha x (by simp [hx]))]
    simp

theorem lineOKB_spaces_append (a l : List Char) (ha : ∀ c ∈ a, c = ' ')
    (h : lineOKB l = true) : lineOKB (a ++ l) = true := by
  rw [lineOKB, Bool.or_eq_true] at h ⊢
  rcases h with h | h
  · left
    rw [List.all_append, Bool.and_eq_true]
    refine ⟨?_, h⟩
    rw [List.all_eq_true]
    intro x hx
    rw [ha x hx]
    decide
  · right
    rw [List.dropWhile_append_of_pos (by intro x hx; simp [ha x hx])]
    exact h

theorem linesOKB_head_tail (r : List Char) (h : linesOKB r = true) :
    lineOKB (splitLines r).headI = true ∧ (splitLines r).tail.all lineOKB = true := by
  rw [linesOKB, eq_headI_cons_tail (splitLines r) (splitLines_ne_nil r),
    List.all_cons, Bool.and_eq_true] at h
  exact h

/-- Output shape after an opening parenthesis: the parenthesis closes its
line, then an indented continuation follows. -/
theorem linesOKB_open_shape (ind r : List Char) (hind : ∀ c ∈ ind, c = ' ')
    (hr : linesOKB r = true) : linesOKB ('(' :: '\n' :: (ind ++ r)) = true := by
  obtain ⟨h1, h2⟩ := linesOKB_head_tail r hr
  rw [linesOKB, splitLines_cons, if_neg (by decide), splitLines_cons, if_pos rfl,
    splitLines_append_no_nl ind r (fun c hc => by rw [hind c hc]; decide)]
  simp only [List.headI, List.tail, List.all_cons, Bool.and_eq_true]
  exact ⟨by decide, lineOKB_spaces_append ind _ hind h1, h2⟩

/-- Output shape after a structural break: a newline, then an indented
continuation. -/
theorem linesOKB_break_shape (ind r : List Char) (hind : ∀ c ∈ ind, c = ' ')
    (hr : linesOKB r = true) : linesOKB ('\n' :: (ind ++ r)) = true := by
  obtain ⟨h1, h2⟩ := linesOKB_head_tail r hr
  rw [linesOKB, splitLines_cons, if_pos rfl,
    splitLines_append_no_nl ind r (fun c hc => by rw [hind c hc]; decide)]
  simp only [List.all_cons, Bool.and_eq_true]
  exact ⟨by decide, lineOKB_spaces_append ind _ hind h1, h2⟩

/-- Output shape after a closing parenthesis whose continuation opens with
a newline (or is empty): the parenthesis gets a line of its own. -/
theorem linesOKB_close_shape (ind r : List Char) (hind : ∀ c ∈ ind, c = ' ')
    (hr : linesOKB r = true) (hr0 : r.head? = some '\n' ∨ r = []) :
    linesOKB ('\n' :: (ind ++ ')' :: r)) = true := by
  obtain ⟨_, h2⟩ := linesOKB_head_tail r hr
  have hfl : (splitLines r).headI = [] := by
    rw [headI_splitLines]
    rcases hr0 with h | h
    · cases r with
      | nil => rfl
      | cons x t =>
        obtain rfl : x = '\n' := by simpa using h
        simp [List.takeWhile_cons]
    · subst h; rfl
  rw [linesOKB, splitLines_cons, if_pos rfl,
    splitLines_append_no_nl ind (')' :: r) (fun c hc => by rw [hind c hc]; decide),
    splitLines_cons, if_neg (by decide), hfl]
  simp only [List.headI, List.tail, List.all_cons, Bool.and_eq_true]
  refine ⟨by decide, lineOKB_spaces_append ind [')'] hind (by decide), h2⟩

/-- Output shape after an ordinary token character: the character extends
the current line, which stays free of parentheses. -/
theorem linesOKB_token_shape (c : Char) (r : List Char) (hc : nonParen c = true)
    (hcn : c ≠ '\n') (hr : linesOKB r = true)
    (hfl : (r.takeWhile (fun x => x ≠ '\n')).all nonParen = true) :
    linesOKB (c :: r) = true := by
  obtain ⟨_, h2⟩ := linesOKB_head_tail r hr
  rw [linesOKB, splitLines_cons, if_neg hcn]
  simp only [List.all_cons, Bool.and_eq_true]
  refine ⟨?_, h2⟩
  rw [lineOKB, Bool.or_eq_true]
  left
  rw [List.all_cons, Bool.and_eq_true, headI_splitLines]
  exact ⟨hc, hfl⟩

theorem adjFrom_tail (prev : Option Char) (c : Char) (rest : List Char)
    (h : adjFrom prev (c :: rest) = true) : adjFrom (some c) rest = true := by
  cases prev with
  | none => exact h
  | some x =>
    rw [adjFrom, Bool.and_eq_true] at h
    exact h.2

theorem adjFrom_head_pair (x : Char) (y : Char) (rest : List Char)
    (h : adjFrom (some x) (y :: rest) = true) : adjPair x y = true := by
  rw [adjFrom, Bool.and_eq_true] at h
  exact h.1

theorem adjPair_after_close (y : Char) (h : adjPair ')' y = true) :
    y = ')' ∨ y = ' ' := by
  rw [adjPair, Bool.and_eq_true] at h
  have h2 := h.2
  rw [if_pos rfl, Bool.or_eq_true, decide_eq_true_eq, decide_eq_true_eq] at h2
  exact h2

theorem adjPair_no_open_after (x y : Char) (hx1 : x ≠ '(') (hx2 : x ≠ ' ')
    (h : adjPair x y = true) : y ≠ '(' := by
  intro hy
  subst hy
  rw [adjPair, Bool.and_eq_true] at h
  have h1 := h.1
  rw [if_pos rfl, Bool.or_eq_true, decide_eq_true_eq, decide_eq_true_eq] at h1
  rcases h1 with h1 | h1
  · exact hx2 h1
  · exact hx1 h1

/-- Main invariant for C3.  On a single-line input whose depth never goes
negative and whose adjacent characters respect the §3 discipline (an
opening parenthesis only after a space, another opening parenthesis or
the start; after a closing parenthesis only another closing parenthesis,
a space or the end), the loop completes and every output line containing
a parenthesis is an indentation run followed by that single parenthesis.
The last three conjuncts strengthen the induction: unless the remaining
input opens with `'('`, the output's first line is parenthesis-free, and
after a leading `')'` or a breaking leading space the output opens with a
newline. -/
theorem c3_main (cs : List Char) : ∀ (prev : Option Char) (sk : Bool) (d : Int),
    0 ≤ d → goesNeg d cs = false → noNewline cs = true →
    adjFrom prev cs = true → prev ≠ some '\n' →
    ∃ out dEnd, formatGo cs prev sk d = some (out, dEnd) ∧
      linesOKB out = true ∧
      (sk = false → cs.head? ≠ some '(' →
        (out.takeWhile (fun x => x ≠ '\n')).all nonParen = true) ∧
      (cs.head? = some ')' → out.head? = some '\n') ∧
      (sk = false → cs.head? = some ' ' → out.head? = some '\n') := by
  induction cs with
  | nil =>
    intro prev sk d hd hg hnl hadj hprev
    refine ⟨[], d, formatGo_nil prev sk d, by decide, ?_, ?_, ?_⟩
    · intro _ _; decide
    · intro h; cases h
    · intro _ h; cases h
  | cons c rest ih =>
    intro prev sk d hd hg hnl hadj hprev
    rw [goesNeg_cons, Bool.or_eq_false_iff, decide_eq_false_iff_not, not_lt] at hg
    obtain ⟨hge, hgrest⟩ := hg
    rw [noNewline, List.all_cons, Bool.and_eq_true] at hnl
    obtain ⟨hcnl, hnlrest⟩ := hnl
    have hcnl2 : c ≠ '\n' := by simpa using hcnl
    have hadjrest : adjFrom (some c) rest = true := adjFrom_tail prev c rest hadj
    by_cases hc1 : c = '('
    · subst hc1
      have hd1 : (0 : Int) ≤ d + 1 := by omega
      have hgr : goesNeg (d + 1) rest = false := by rwa [charBal_open] at hgrest
      obtain ⟨r, dE, hr, hlines, hB, hC, hD⟩ :=
        ih (some '(') false (d + 1) hd1 hgr hnlrest hadjrest (by decide)
      refine ⟨'(' :: '\n' :: (strRepeat [' ', ' '] (d + 1).toNat ++ r), dE,
        ?_, ?_, ?_, ?_, ?_⟩
      · rw [formatGo_open, jsIndent_of_nonneg _ hd1, Option.some_bind, hr,
          Option.map_some']
      · exact linesOKB_open_shape _ r (fun x hx => mem_strRepeat_spaces _ x hx) hlines
      · intro _ habs; exact absurd rfl habs
      · intro h; exact absurd h (by simp)
      · intro _ h; exact absurd h (by simp)
    · by_cases hc2 : c = ')'
      · subst hc2
        have hd1 : (0 : Int) ≤ d - 1 := by rw [charBal_close] at hge; omega
        have hgr : goesNeg (d - 1) rest = false := by
          rw [charBal_close] at hgrest
          rwa [sub_eq_add_neg]
        obtain ⟨r, dE, hr, hlines, hB, hC, hD⟩ :=
          ih (some ')') false (d - 1) hd1 hgr hnlrest hadjrest (by decide)
        have hr0 : r.head? = some '\n' ∨ r = [] := by
          cases hrest : rest with
          | nil =>
            right
            rw [hrest, formatGo_nil] at hr
            simp only [Option.some.injEq, Prod.mk.injEq] at hr
            exact hr.1.symm
          | cons y rest2 =>
            left
            have hpair := adjFrom_head_pair ')' y rest2 (by rwa [hrest] at hadjrest)
            rcases adjPair_after_close y hpair with hy | hy
            · subst hy
              exact hC (by rw [hrest]; rfl)
            · subst hy
              exact hD rfl (by rw [hrest]; rfl)
        refine ⟨'\n' :: (strRepeat [' ', ' '] (d - 1).toNat ++ ')' :: r), dE,
          ?_, ?_, ?_, ?_, ?_⟩
        · rw [formatGo_close, jsIndent_of_nonneg _ hd1, Option.some_bind, hr,
            Option.map_some']
        · exact linesOKB_close_shape _ r (fun x hx => mem_strRepeat_spaces _ x hx)
            hlines hr0
        · intro _ _
          simp [List.takeWhile_cons]
        · intro _; rfl
        · intro _ h; exact absurd h (by simp)
      · by_cases hc3 : c = ' '
        · subst hc3
          have hgr : goesNeg d rest = false := by
            have hzero : charBal ' ' = 0 := by decide
            rwa [hzero, add_zero] at hgrest
          cases sk with
          | true =>
            obtain ⟨r, dE, hr, hlines, hB, hC, hD⟩ :=
              ih (some ' ') true d hd hgr hnlrest hadjrest (by decide)
            refine ⟨r, dE, ?_, hlines, ?_, ?_, ?_⟩
            · rw [formatGo_skip, hr]
            · intro h; cases h
            · intro h; exact absurd h (by simp)
            · intro h; cases h
          | false =>
            obtain ⟨r, dE, hr, hlines, hB, hC, hD⟩ :=
              ih (some ' ') true d hd hgr hnlrest hadjrest (by decide)
            refine ⟨'\n' :: (strRepeat [' ', ' '] d.toNat ++ r), dE, ?_, ?_, ?_, ?_, ?_⟩
            · rw [formatGo_break rest prev d hprev, jsIndent_of_nonneg _ hd,
                Option.some_bind, hr, Option.map_some']
            · exact linesOKB_break_shape _ r (fun x hx => mem_strRepeat_spaces _ x hx)
                hlines
            · intro _ _
              simp [List.takeWhile_cons]
            · intro h; exact absurd h (by simp)
            · intro _ _; rfl
        · have hgr : goesNeg d rest = false := by
            have hzero : charBal c = 0 := charBal_of_ne c hc1 hc2
            rwa [hzero, add_zero] at hgrest
          obtain ⟨r, dE, hr, hlines, hB, hC, hD⟩ :=
            ih (some c) false d hd hgr hnlrest hadjrest (by simp [hcnl2])
          have hrestopen : rest.head? ≠ some '(' := by
            cases hrest : rest with
            | nil => simp
            | cons y rest2 =>
              have hpair := adjFrom_head_pair c y rest2 (by rwa [hrest] at hadjrest)
              have hyne := adjPair_no_open_after c y hc1 hc3 hpair
              simp [hyne]
          have hflr : (r.takeWhile (fun x => x ≠ '\n')).all nonParen = true :=
            hB rfl hrestopen
          have hcnp : nonParen c = true := by
            rw [nonParen]
            simp [hc1, hc2]
          refine ⟨c :: r, dE, ?_, ?_, ?_, ?_, ?_⟩
          · rw [formatGo_other rest prev sk d c hc1 hc2 hc3, hr, Option.map_some']
          · exact linesOKB_token_shape c r hcnp hcnl2 hlines hflr
          · intro _ _
            have htw : List.takeWhile (fun x => decide (x ≠ '\n')) (c :: r) =
                c :: List.takeWhile (fun x => decide (x ≠ '\n')) r :=
              List.takeWhile_cons_of_pos (by simpa using hcnl2)
            rw [htw, List.all_cons, Bool.and_eq_true]
            exact ⟨hcnp, hflr⟩
          · intro h; exact absurd h (by simp [hc2])
          · intro _ h; exact absurd h (by simp [hc3])

end LineLemmas

section Claims

/-- C1, counterexample.  The claim asserts that on an input whose nesting
depth goes negative, `formatAST` completes normally and silently returns
a (malformed, negatively indented) output string.  On the input `")"`
the depth goes negative at the first character, and the code does NOT
complete normally: after `depth--` it evaluates `'  '.repeat(-1)`, which
raises a `RangeError`, modelled here as the function returning `none`
instead of any output string. -/
theorem claim_C1_counterexample :
    goesNeg 0 ")".toList = true ∧ formatAST ")" 0 = none := by
  decide

/-- C1, amended.  `formatAST` indeed performs no explicit balance
validation, but it does not complete normally on a depth-negative input:
for every input string on which the nesting depth goes negative, the
negative-count indentation repeat raises, so the function signals a fault
and returns no output string at all. -/
theorem claim_C1_amended (s : String) (h : goesNeg 0 s.toList = true) :
    formatAST s 0 = none := by
  rw [formatAST_zero, formatGo_fail s.toList none false 0 le_rfl h, Option.map_none']

/-- Witness for C1: the amended theorem applied to the concrete
depth-negative input `"a)b"`. -/
theorem claim_C1_witness :
    goesNeg 0 "a)b".toList = true ∧ formatAST "a)b" 0 = none :=
  ⟨by decide, claim_C1_amended "a)b" (by decide)⟩

/-- C2, counterexample.  The claim asserts that for every balanced
parenthesized token string, deleting from the output every line break and
indentation run that the formatter inserted reproduces the input exactly.
Take the balanced input `"(a b)"`.  Its single original space character
is consumed by the space rule and never emitted, so every whitespace
character of the output `"(\n  a\n  b\n)"` was inserted by the formatter;
deleting all of them yields `"(ab)"`, which differs from the input: the
original separating space is lost, not reproduced. -/
theorem claim_C2_counterexample :
    balancedB "(a b)".toList = true ∧
    formatAST "(a b)" 0 = some "(\n  a\n  b\n)" ∧
    removeWS "(\n  a\n  b\n)".toList = "(ab)".toList ∧
    "(ab)".toList ≠ "(a b)".toList := by
  refine ⟨by decide, by decide, by decide, by decide⟩

/-- C2, amended.  The reconstruction is exact only for balanced inputs
that contain no whitespace of their own: for every balanced parenthesized
string `s` with no space or newline characters, every whitespace
character of `formatAST s` is formatter-inserted, and deleting all of
them reproduces `s` exactly. -/
theorem claim_C2_amended (s : String) (hbal : balancedB s.toList = true)
    (hws : s.toList.all (fun c => !isWS c) = true) :
    ∃ out, formatAST s 0 = some out ∧ removeWS out.toList = s.toList := by
  have hng : goesNeg 0 s.toList = false := by
    rw [balancedB, Bool.and_eq_true, Bool.not_eq_true'] at hbal
    exact hbal.1
  obtain ⟨out, hout⟩ := formatGo_total s.toList none false 0 le_rfl hng
  refine ⟨String.mk out, ?_, ?_⟩
  · rw [formatAST_zero, hout, Option.map_some']
  · have hfil := formatGo_filter s.toList none false 0 out (0 + balance s.toList) hout
    have hid : s.toList.filter (fun c => !isWS c) = s.toList :=
      List.filter_eq_self.mpr (by simpa [List.all_eq_true] using hws)
    have : (String.mk out).toList = out := rfl
    rw [removeWS, this, hfil, hid]

/-- Witness for C2: the amended theorem applied to the concrete balanced,
whitespace-free input `"((ab))"`. -/
theorem claim_C2_witness :
    balancedB "((ab))".toList = true ∧
    "((ab))".toList.all (fun c => !isWS c) = true ∧
    ∃ out, formatAST "((ab))" 0 = some out ∧ removeWS out.toList = "((ab))".toList :=
  ⟨by decide, by decide, claim_C2_amended "((ab))" (by decide) (by decide)⟩

/-- C3, confirmed.  For every balanced serialized tree string in the §3
format (balanced parentheses, one line, single separating spaces, the §3
adjacency discipline), the formatter completes, every output line that
contains a parenthesis consists of an indentation run of spaces followed
by exactly that one parenthesis, and all the input's parentheses appear
in the output (their counts are preserved): every `'('` and `')'` of the
input ends up on a line of its own, preceded only by its indentation. -/
theorem claim_C3_parens_own_lines (s : String) (h : serialized3 s.toList = true) :
    ∃ out, formatAST s 0 = some out ∧ linesOKB out.toList = true ∧
      out.toList.count '(' = s.toList.count '(' ∧
      out.toList.count ')' = s.toList.count ')' := by
  rw [serialized3] at h
  simp only [Bool.and_eq_true] at h
  obtain ⟨⟨⟨hbal, hnl⟩, _⟩, hadj⟩ := h
  have hng : goesNeg 0 s.toList = false := by
    rw [balancedB, Bool.and_eq_true, Bool.not_eq_true'] at hbal
    exact hbal.1
  obtain ⟨out, dE, hout, hlines, _, _, _⟩ :=
    c3_main s.toList none false 0 le_rfl hng hnl hadj (by simp)
  have hfil := formatGo_filter s.toList none false 0 out dE hout
  have htl : (String.mk out).toList = out := rfl
  refine ⟨String.mk out, ?_, ?_, ?_, ?_⟩
  · rw [formatAST_zero, hout, Option.map_some']
  · rw [htl]; exact hlines
  · rw [htl]; exact count_eq_of_filter_nonWS_eq '(' (by decide) out s.toList hfil
  · rw [htl]; exact count_eq_of_filter_nonWS_eq ')' (by decide) out s.toList hfil

/-- Witness for C3: the theorem applied to the concrete §3 string
`"(a (b) (c d))"`. -/
theorem claim_C3_witness :
    serialized3 "(a (b) (c d))".toList = true ∧
    ∃ out, formatAST "(a (b) (c d))" 0 = some out ∧ linesOKB out.toList = true ∧
      out.toList.count '(' = "(a (b) (c d))".toList.count '(' ∧
      out.toList.count ')' = "(a (b) (c d))".toList.count ')' :=
  ⟨by decide, claim_C3_parens_own_lines "(a (b) (c d))" (by decide)⟩

/-- C4, counterexample.  The claim's guard is "a space not immediately
preceded by a newline already inserted by the formatting process".  The
process never inserts characters into the input it scans, so under the
claim the break rule would fire at every space, including one preceded by
a newline that was already present in the input.  On the input
`"\n "` (an original newline, then a space) the claim therefore predicts
a break: output `"\n"` (the copied newline) followed by `"\n"` (the
inserted break, with empty depth-0 indentation) — i.e. `"\n\n"`.  The
code instead tests the literal previous character of the ORIGINAL input
(`ast[i - 1] !== '\n'`), the guard fails, and the space is emitted
unchanged: the output is `"\n "`, not `"\n\n"`. -/
theorem claim_C4_counterexample :
    formatAST "\n " 0 = some "\n " ∧ ("\n " : String) ≠ "\n\n" := by
  refine ⟨by decide, by decide⟩

/-- C4, amended.  The correct guard reads the original input: at a space
character whose immediately preceding INPUT character is not a literal
newline (at position 0 there is no preceding character and the guard
holds), the loop emits a line break followed by the indentation prefix
for the current depth, and then skips all immediately following
consecutive spaces, so a run of spaces collapses to a single structural
break. -/
theorem claim_C4_amended (rest : List Char) (prev : Option Char) (d : Int)
    (hprev : prev ≠ some '\n') (hd : 0 ≤ d) :
    formatGo (' ' :: rest) prev false d =
      (formatGo (rest.dropWhile (fun c => c = ' ')) (some ' ') false d).map
        fun p => ('\n' :: (strRepeat [' ', ' '] d.toNat ++ p.1), p.2) := by
  rw [formatGo_break rest prev d hprev, jsIndent_of_nonneg d hd, Option.some_bind,
    formatGo_skipping_eq_dropWhile]

/-- Witness for C4: the amended theorem applied at a concrete space run
`"  b"` after the character `'a'` at depth 0. -/
theorem claim_C4_witness :
    (some 'a' ≠ some '\n') ∧
    formatGo (' ' :: [' ', 'b']) (some 'a') false 0 =
      (formatGo (([' ', 'b'] : List Char).dropWhile (fun c => c = ' '))
          (some ' ') false 0).map
        fun p => ('\n' :: (strRepeat [' ', ' '] (0 : Int).toNat ++ p.1), p.2) :=
  ⟨by decide, claim_C4_amended [' ', 'b'] (some 'a') 0 (by decide) (by decide)⟩

/-- C5, confirmed.  For every input on which `formatAST` completes, the
subsequence of non-whitespace characters of the output equals the
subsequence of non-whitespace characters of the input, in order and with
the same character content: the formatter inserts only whitespace and
removes only whitespace. -/
theorem claim_C5_nonws_subsequence (s : String) (out : String)
    (h : formatAST s 0 = some out) :
    out.toList.filter (fun c => !isWS c) = s.toList.filter (fun c => !isWS c) := by
  rw [formatAST_zero, Option.map_eq_some'] at h
  obtain ⟨p, hp, rfl⟩ := h
  have : (String.mk p.1).toList = p.1 := rfl
  rw [this]
  exact formatGo_filter s.toList none false 0 p.1 p.2 (by rw [hp])

/-- Witness for C5: the theorem applied to the concrete input `"(a b)"`
and its computed output. -/
theorem claim_C5_witness :
    formatAST "(a b)" 0 = some "(\n  a\n  b\n)" ∧
    "(\n  a\n  b\n)".toList.filter (fun c => !isWS c) =
      "(a b)".toList.filter (fun c => !isWS c) :=
  ⟨by decide, claim_C5_nonws_subsequence "(a b)" "(\n  a\n  b\n)" (by decide)⟩

/-- C6, confirmed.  Whenever `formatAST` produces an output (on a
depth-negative input it raises instead and there is no output string to
count), the output contains exactly as many `'('` characters as the
input, and likewise for `')'`. -/
theorem claim_C6_paren_counts (s : String) (out : String)
    (h : formatAST s 0 = some out) :
    out.toList.count '(' = s.toList.count '(' ∧
    out.toList.count ')' = s.toList.count ')' := by
  rw [formatAST_zero, Option.map_eq_some'] at h
  obtain ⟨p, hp, rfl⟩ := h
  have hfil := formatGo_filter s.toList none false 0 p.1 p.2 (by rw [hp])
  have : (String.mk p.1).toList = p.1 := rfl
  rw [this]
  exact ⟨count_eq_of_filter_nonWS_eq '(' (by decide) p.1 s.toList hfil,
    count_eq_of_filter_nonWS_eq ')' (by decide) p.1 s.toList hfil⟩

/-- Witness for C6: the theorem applied to the concrete input `"(a (b))"`
and its computed output. -/
theorem claim_C6_witness :
    formatAST "(a (b))" 0 = some "(\n  a\n  (\n    b\n  )\n)" ∧
    ("(\n  a\n  (\n    b\n  )\n)".toList.count '(' = "(a (b))".toList.count '(' ∧
     "(\n  a\n  (\n    b\n  )\n)".toList.count ')' = "(a (b))".toList.count ')') :=
  ⟨by decide, claim_C6_paren_counts "(a (b))" "(\n  a\n  (\n    b\n  )\n)" (by decide)⟩

/-- C7, confirmed.  On every balanced input the scanning loop completes
and its depth counter — initialized to 0, incremented on each `'('` and
decremented on each `')'` — is 0 again after the entire input has been
consumed: the second component of the result of `formatGo` is the final
value of the counter, and it is 0. -/
theorem claim_C7_final_depth_zero (s : String) (h : balancedB s.toList = true) :
    ∃ out, formatGo s.toList none false 0 = some (out, 0) := by
  rw [balancedB, Bool.and_eq_true, Bool.not_eq_true', decide_eq_true_eq] at h
  obtain ⟨hng, hbal⟩ := h
  obtain ⟨out, hout⟩ := formatGo_total s.toList none false 0 le_rfl hng
  rw [hbal] at hout
  exact ⟨out, by simpa using hout⟩

/-- Witness for C7: the theorem applied to the concrete balanced input
`"(a b)"`. -/
theorem claim_C7_witness :
    balancedB "(a b)".toList = true ∧
    ∃ out, formatGo "(a b)".toList none false 0 = some (out, 0) :=
  ⟨by decide, claim_C7_final_depth_zero "(a b)" (by decide)⟩

/-- C8, confirmed.  On the spec's worked example the formatter produces
exactly the multi-line rendering claimed: `a` sits at indentation level 1
(two spaces), the subtrees `(b)` and `(c d)` open at level 1, their
interior tokens `b`, `c` and `d` sit at level 2 (four spaces), every
parenthesis stands on its own line, and the space run between `c` and
`d` becomes exactly one line break plus indentation.  The second
conjunct exhibits the output's lines with their indentation. -/
theorem claim_C8_worked_example :
    formatAST "(a (b) (c d))" 0 =
      some "(\n  a\n  (\n    b\n  )\n  (\n    c\n    d\n  )\n)" ∧
    splitLines "(\n  a\n  (\n    b\n  )\n  (\n    c\n    d\n  )\n)".toList =
      [['('],
       [' ', ' ', 'a'],
       [' ', ' ', '('],
       [' ', ' ', ' ', ' ', 'b'],
       [' ', ' ', ')'],
       [' ', ' ', '('],
       [' ', ' ', ' ', ' ', 'c'],
       [' ', ' ', ' ', ' ', 'd'],
       [' ', ' ', ')'],
       [')']] := by
  refine ⟨by decide, by decide⟩

/-- C9, counterexample.  The claim quantifies over every value of the
optional second parameter, but the parameter is not entirely inert: the
very first statement of the function evaluates `'  '.repeat(indent)`,
and for a negative argument that repeat raises a `RangeError` before the
loop runs.  So `formatAST "" (-1)` raises (returns no string) while
`formatAST "" 0` returns `""`. -/
theorem claim_C9_counterexample :
    formatAST "" (-1) = none ∧ formatAST "" 0 = some "" ∧
    formatAST "" (-1) ≠ formatAST "" 0 := by
  refine ⟨by decide, by decide, by decide⟩

/-- C9, amended.  For every non-negative value `n` of the optional second
parameter the claim holds: the locally computed `spaces` prefix is never
used, so `formatAST ast n` equals `formatAST ast 0`. -/
theorem claim_C9_amended (ast : String) (n : Int) (h : 0 ≤ n) :
    formatAST ast n = formatAST ast 0 := by
  simp [formatAST, jsRepeat, not_lt.mpr h]

/-- Witness for C9: the amended theorem applied at the concrete input
`"(a)"` with `n = 5`. -/
theorem claim_C9_witness :
    (0 : Int) ≤ 5 ∧ formatAST "(a)" 5 = formatAST "(a)" 0 :=
  ⟨by decide, claim_C9_amended "(a)" 5 (by decide)⟩

/-- C10, confirmed.  If the first input character is a space, then at
position 0 the previous-character read is out of range (`undefined` in
the source, `none` here), so the space-break guard holds and the loop
emits a line break followed by the empty depth-0 indentation before
anything else: whenever an output exists it begins with a newline. -/
theorem claim_C10_leading_space (s : String) (out : String)
    (h1 : s.toList.head? = some ' ') (h2 : formatAST s 0 = some out) :
    out.toList.head? = some '\n' := by
  rw [formatAST_zero] at h2
  cases hs : s.toList with
  | nil => rw [hs] at h1; cases h1
  | cons c rest =>
    rw [hs] at h1 h2
    obtain rfl : c = ' ' := by simpa using h1
    rw [formatGo_break rest none 0 (by simp), jsIndent_of_nonneg 0 le_rfl,
      Option.some_bind] at h2
    rw [Option.map_eq_some'] at h2
    obtain ⟨p, hp, rfl⟩ := h2
    rw [Option.map_eq_some'] at hp
    obtain ⟨q, hq, rfl⟩ := hp
    rfl

/-- Witness for C10: the theorem applied to the concrete input `" a"`
and its computed output `"\na"`. -/
theorem claim_C10_witness :
    " a".toList.head? = some ' ' ∧ formatAST " a" 0 = some "\na" ∧
    "\na".toList.head? = some '\n' :=
  ⟨by decide, by decide, claim_C10_leading_space " a" "\na" (by decide) (by decide)⟩

end Claims

end TreeFmt
